import Mathlib

/-!
Verification of the sequential SAR change-detection program `sar_seq_sav.py`
(338 lines, single file).  The development shallowly embeds the parts of the
program that the specification talks about:

* the Change-Map Synthesizer (source lines 267-282): the per-pixel state
  machine over the upper-triangular p-value matrix, with the four output
  maps `cmap`, `smap`, `fmap`, `bmap`;
* the Sequential Test Statistic Engine `PV` (source lines 104-160): the
  Bartlett-corrected likelihood-ratio formulas, with the transcendental
  collaborators `np.log` and `scipy.stats.chi2.cdf` abstracted as function
  parameters and machine floats idealized as exact rationals;
* the Determinant/Sum Accumulator inside `PV` (source lines 108-143):
  Hermitian matrix element accumulation and the closed-form determinants
  for p = 1, 2, 3, with complex entries embedded as pairs of rationals;
* the numerical clamping policy (source lines 144-152): `np.nan_to_num`
  followed by `np.where(d <= eps, eps, d)` before each `np.log`, with a
  NaN entry embedded as `Option.none`;
* the band-count dispatch of `main` (source lines 236-244).

Machine numbers are idealized as `ℚ` (exact arithmetic); the synthesizer's
byte-typed maps are idealized as `ℕ` (the program only ever stores values
`0`, `j+1 ≤ k-1` and the mask value `255`, all far below any byte wrap for
the stack sizes the program addresses).
-/

namespace SarSeq

/-! ## Change-Map Synthesizer (source lines 267-282)

Per-pixel state of the four output maps.  In the source the maps are
whole-raster `numpy` arrays updated through boolean index masks; the masks
are computed per pixel, so the synthesis pass is a per-pixel fold over the
(ell, j) traversal.  `bmap` is the k-1 layer bitemporal mask, kept as a
function from layer index to stored value. -/
@[ext]
structure PixelState where
  cmap : ℕ
  smap : ℕ
  fmap : ℕ
  bmap : ℕ → ℕ

/-- Source lines 267-273: `np.zeros` initialization of all four maps. -/
def initState : PixelState := ⟨0, 0, 0, fun _ => 0⟩

/-- One inner-loop body of the synthesis pass, source lines 276-282:

    idx  = np.where( (pv <= significance) & (cmap == ell) )
    idx1 = np.where( (pv <= significance) & (cmap == 0) )
    fmap[idx] += 1
    cmap[idx] = j+1
    bmap[idx,j] = 255
    smap[idx1] = j+1

Both masks are computed from the state before any of the four updates. -/
def synthStep (sig pv : ℚ) (ell j : ℕ) (s : PixelState) : PixelState :=
  { fmap := if pv ≤ sig ∧ s.cmap = ell then s.fmap + 1 else s.fmap
    cmap := if pv ≤ sig ∧ s.cmap = ell then j + 1 else s.cmap
    bmap := fun i => if (pv ≤ sig ∧ s.cmap = ell) ∧ i = j then 255 else s.bmap i
    smap := if pv ≤ sig ∧ s.cmap = 0 then j + 1 else s.smap }

/-- The inner loop `for j in range(ell, k-1)` runs over this list. -/
def synthBlockJs (kk ell : ℕ) : List ℕ := List.range' ell (kk - 1 - ell)

/-- The inner loop of the synthesis pass at a fixed `ell`. -/
def runBlock (sig : ℚ) (pvm : ℕ → ℕ → ℚ) (ell : ℕ) (js : List ℕ)
    (s : PixelState) : PixelState :=
  js.foldl (fun t j => synthStep sig (pvm ell j) ell j t) s

/-- Source lines 274-282: the full synthesis pass,
`for ell in range(k-1): for j in range(ell, k-1): ...`,
read per pixel; `pvm ell j` is the pixel's entry of the p-value matrix. -/
def synthesize (kk : ℕ) (sig : ℚ) (pvm : ℕ → ℕ → ℚ) : PixelState :=
  (List.range (kk - 1)).foldl
    (fun s ell => runBlock sig pvm ell (synthBlockJs kk ell) s) initState

/-! ### The spec's pseudocode for the same pass (spec section 4.4)

    cmap, smap, fmap initialized to 0 (no change) for all pixels
    for ell in 0..k-2:
        for j in ell..k-2:
            pv = PValueMatrix[ell, j]
            hit       = (pv <= significance) AND (cmap == ell)
            firstHit  = (pv <= significance) AND (cmap == 0)
            fmap[hit]      += 1
            cmap[hit]      = j + 1
            bmap[hit, j]   = 255
            smap[firstHit] = j + 1

transcribed independently, with the guards as boolean flags. -/
def specStep (significance pv : ℚ) (ell j : ℕ) (s : PixelState) : PixelState :=
  let hit : Bool := decide (pv ≤ significance) && decide (s.cmap = ell)
  let firstHit : Bool := decide (pv ≤ significance) && decide (s.cmap = 0)
  { fmap := if hit then s.fmap + 1 else s.fmap
    cmap := if hit then j + 1 else s.cmap
    bmap := fun i => if hit && decide (i = j) then 255 else s.bmap i
    smap := if firstHit then j + 1 else s.smap }

/-- Spec section 4.4 traversal: `ell` ascending over `0..k-2`, `j` ascending
over `ell..k-2`, zero-initialized state. -/
def specSynthesize (kk : ℕ) (sig : ℚ) (pvm : ℕ → ℕ → ℚ) : PixelState :=
  (List.range (kk - 1)).foldl
    (fun s ell =>
      ((List.range (kk - 1)).drop ell).foldl
        (fun t j => specStep sig (pvm ell j) ell j t) s)
    initState

/-- The index pairs (ell, j) whose p-value rasters the populate loop
(source lines 257-264) writes, in traversal order; identical index ranges
are used by the synthesis pass. -/
def pvIndices (kk : ℕ) : List (ℕ × ℕ) :=
  (List.range (kk - 1)).flatMap
    (fun i => (List.range' i (kk - 1 - i)).map (fun j => (i, j)))

/-- The synthesis pass as a single fold over the flattened traversal. -/
def runPairs (sig : ℚ) (pvm : ℕ → ℕ → ℚ) (l : List (ℕ × ℕ))
    (s : PixelState) : PixelState :=
  l.foldl (fun t q => synthStep sig (pvm q.1 q.2) q.1 q.2 t) s

/-- The outer loop of the synthesis pass as a fold over a list of `ell`
values. -/
def runBlocks (kk : ℕ) (sig : ℚ) (pvm : ℕ → ℕ → ℚ) (ells : List ℕ)
    (s : PixelState) : PixelState :=
  ells.foldl (fun t ell => runBlock sig pvm ell (synthBlockJs kk ell) t) s

/-! ### Pixels counted as changed in each output map -/

/-- Pixel marked as changed in the most-recent-change map. -/
def markedCmap (kk : ℕ) (sig : ℚ) (pvm : ℕ → ℕ → ℚ) : Bool :=
  decide ((synthesize kk sig pvm).cmap ≠ 0)

/-- Pixel marked as changed in the first-change map. -/
def markedSmap (kk : ℕ) (sig : ℚ) (pvm : ℕ → ℕ → ℚ) : Bool :=
  decide ((synthesize kk sig pvm).smap ≠ 0)

/-- Pixel marked as changed in the change-frequency map. -/
def markedFmap (kk : ℕ) (sig : ℚ) (pvm : ℕ → ℕ → ℚ) : Bool :=
  decide ((synthesize kk sig pvm).fmap ≠ 0)

/-- Pixel marked as changed in some layer of the bitemporal map. -/
def markedBmap (kk : ℕ) (sig : ℚ) (pvm : ℕ → ℕ → ℚ) : Bool :=
  (List.range (kk - 1)).any
    (fun i => decide ((synthesize kk sig pvm).bmap i = 255))

/-! ## Sequential Test Statistic Engine (source lines 104-160)

The engine is transcribed per pixel over exact rationals.  The two
transcendental collaborators are abstracted as function parameters:
`log` stands for `np.log` and `cdf z d` for `scipy.stats.chi2.cdf(z, [d])`.
`p` is the polarimetric matrix dimension, `jt` the number of acquisitions
in the sub-sequence (`j = np.float64(len(fns))` in the source), `n` the
equivalent number of looks, and `l1 l2 l3` the already-clamped logarithms
`logdetsumj1`, `logdetj`, `logdetsumj`. -/

/-- Source line 154:
`lnRj = n*( p*( j*np.log(j)-(j-1)*np.log(j-1.) ) + (j-1)*logdetsumj1 + logdetj - j*logdetsumj )` -/
def lnRj (log : ℚ → ℚ) (n : ℚ) (p jt : ℕ) (l1 l2 l3 : ℚ) : ℚ :=
  n * ((p : ℚ) * ((jt : ℚ) * log (jt : ℚ) - ((jt : ℚ) - 1) * log ((jt : ℚ) - 1))
    + ((jt : ℚ) - 1) * l1 + l2 - (jt : ℚ) * l3)

/-- Source line 155: `f = p**2`. -/
def fPar (p : ℕ) : ℕ := p ^ 2

/-- Source line 156:
`rhoj = 1 - (2.*p**2 - 1)*(1. + 1./(j*(j-1)))/(6.*p*n)` -/
def rhoj (n : ℚ) (p jt : ℕ) : ℚ :=
  1 - (2 * (p : ℚ) ^ 2 - 1) * (1 + 1 / ((jt : ℚ) * ((jt : ℚ) - 1))) / (6 * (p : ℚ) * n)

/-- Source line 157:
`omega2j = -(p*p/4.)*(1.-1./rhoj)**2 + (1./(24.*n*n))*p*p*(p*p-1)*(1+(2.*j-1)/(j*(j-1))**2)/rhoj**2` -/
def omega2j (n : ℚ) (p jt : ℕ) : ℚ :=
  -((p : ℚ) * (p : ℚ) / 4) * (1 - 1 / rhoj n p jt) ^ 2
    + (1 / (24 * n * n)) * (p : ℚ) * (p : ℚ) * ((p : ℚ) * (p : ℚ) - 1)
      * (1 + (2 * (jt : ℚ) - 1) / ((jt : ℚ) * ((jt : ℚ) - 1)) ^ 2) / rhoj n p jt ^ 2

/-- Source line 159: `Z = -2*rhoj*lnRj`. -/
def Zj (log : ℚ → ℚ) (n : ℚ) (p jt : ℕ) (l1 l2 l3 : ℚ) : ℚ :=
  -2 * rhoj n p jt * lnRj log n p jt l1 l2 l3

/-- Source line 160:
`return 1.0 - ((1.-omega2j)*stats.chi2.cdf(Z,[f])+omega2j*stats.chi2.cdf(Z,[f+4]))` -/
def PVpv (log : ℚ → ℚ) (cdf : ℚ → ℕ → ℚ) (n : ℚ) (p jt : ℕ)
    (l1 l2 l3 : ℚ) : ℚ :=
  1 - ((1 - omega2j n p jt) * cdf (Zj log n p jt l1 l2 l3) (fPar p)
    + omega2j n p jt * cdf (Zj log n p jt l1 l2 l3) (fPar p + 4))

/-! ### The spec's formulas (spec section 4.2, claim C3), transcribed
independently from the specification text. -/

/-- Spec: `lnR = n·( p·(j·ln(j) − (j−1)·ln(j−1)) + (j−1)·logDetSum_{j-1} + logDet_last − j·logDetSum_j )`. -/
def lnRspec (log : ℚ → ℚ) (n : ℚ) (p jt : ℕ) (l1 l2 l3 : ℚ) : ℚ :=
  n * ((p : ℚ) * ((jt : ℚ) * log (jt : ℚ) - ((jt : ℚ) - 1) * log ((jt : ℚ) - 1))
    + ((jt : ℚ) - 1) * l1 + l2 - (jt : ℚ) * l3)

/-- Spec: `f = p²`. -/
def fSpec (p : ℕ) : ℕ := p ^ 2

/-- Spec: `ρ = 1 − (2p²−1)(1 + 1/(j(j−1))) / (6·p·n)`. -/
def rhoSpec (n : ℚ) (p jt : ℕ) : ℚ :=
  1 - (2 * (p : ℚ) ^ 2 - 1) * (1 + 1 / ((jt : ℚ) * ((jt : ℚ) - 1))) / (6 * (p : ℚ) * n)

/-- Spec: `ω² = −(p²/4)(1−1/ρ)² + (p²(p²−1)(1+(2j−1)/(j(j−1))²)) / (24·n²·ρ²)`. -/
def omega2Spec (n : ℚ) (p jt : ℕ) : ℚ :=
  -((p : ℚ) ^ 2 / 4) * (1 - 1 / rhoSpec n p jt) ^ 2
    + ((p : ℚ) ^ 2 * ((p : ℚ) ^ 2 - 1)
        * (1 + (2 * (jt : ℚ) - 1) / ((jt : ℚ) * ((jt : ℚ) - 1)) ^ 2))
      / (24 * n ^ 2 * rhoSpec n p jt ^ 2)

/-- Spec: `Z = −2·ρ·lnR`. -/
def Zspec (log : ℚ → ℚ) (n : ℚ) (p jt : ℕ) (l1 l2 l3 : ℚ) : ℚ :=
  -2 * rhoSpec n p jt * lnRspec log n p jt l1 l2 l3

/-- Spec: `pv = 1 − [(1−ω²)·χ²_cdf(Z; f) + ω²·χ²_cdf(Z; f+4)]`. -/
def PVspec (log : ℚ → ℚ) (cdf : ℚ → ℕ → ℚ) (n : ℚ) (p jt : ℕ)
    (l1 l2 l3 : ℚ) : ℚ :=
  1 - ((1 - omega2Spec n p jt) * cdf (Zspec log n p jt l1 l2 l3) (fSpec p)
    + omega2Spec n p jt * cdf (Zspec log n p jt l1 l2 l3) (fSpec p + 4))

/-! ## Numerical clamping policy (source lines 107, 144-152)

`eps = sys.float_info.min` (a strictly positive constant); for each of the
three determinant rasters the source performs
`d = np.nan_to_num(d); d = np.where(d <= eps, eps, d); logd = np.log(d)`.
A NaN entry of a determinant raster is embedded as `Option.none`. -/

/-- `np.nan_to_num`: a NaN becomes 0, every number is kept. -/
def nanToNum : Option ℚ → ℚ
  | none => 0
  | some x => x

/-- `np.where(d <= eps, eps, d)`. -/
def clampDet (eps x : ℚ) : ℚ := if x ≤ eps then eps else x

/-- The value each `np.log` in the engine is applied to. -/
def logArg (eps : ℚ) (d : Option ℚ) : ℚ := clampDet eps (nanToNum d)

/-- The engine front end: clamp the three determinant rasters, take
logarithms, and feed the test statistic (source lines 144-160). -/
def PVfull (log : ℚ → ℚ) (cdf : ℚ → ℕ → ℚ) (eps n : ℚ) (p jt : ℕ)
    (dsumj1 dj dsumj : Option ℚ) : ℚ :=
  PVpv log cdf n p jt
    (log (logArg eps dsumj1)) (log (logArg eps dj)) (log (logArg eps dsumj))

/-! ## Determinant/Sum Accumulator (source lines 108-143)

Per pixel, a polarimetric matrix is carried as the element tuple
`(k, a, rho, xsi, b, zeta)` with `k, xsi, zeta` real and `a, rho, b`
complex, exactly the variables of `PV`; unused elements stay 0 for
`p = 1, 2`.  Complex values are embedded as pairs of exact rationals. -/

/-- A complex number as a pair of exact rationals. -/
structure CQ where
  re : ℚ
  im : ℚ
deriving DecidableEq

def CQ.zero : CQ := ⟨0, 0⟩

def CQ.add (x y : CQ) : CQ := ⟨x.re + y.re, x.im + y.im⟩

def CQ.sub (x y : CQ) : CQ := ⟨x.re - y.re, x.im - y.im⟩

def CQ.mul (x y : CQ) : CQ :=
  ⟨x.re * y.re - x.im * y.im, x.re * y.im + x.im * y.re⟩

/-- `np.conj`. -/
def CQ.conj (x : CQ) : CQ := ⟨x.re, -x.im⟩

/-- Multiplication by a real scalar (`n * a1` in the source). -/
def CQ.scale (c : ℚ) (x : CQ) : CQ := ⟨c * x.re, c * x.im⟩

/-- `abs(z)**2` in exact arithmetic. -/
def CQ.normSq (x : CQ) : ℚ := x.re * x.re + x.im * x.im

/-- The per-pixel matrix element tuple `(k, a, rho, xsi, b, zeta)` of the
accumulator in `PV` (source line 108). -/
@[ext]
structure PolMat where
  k : ℚ
  a : CQ
  rho : CQ
  xsi : ℚ
  b : CQ
  zeta : ℚ
deriving DecidableEq

def PolMat.zero : PolMat := ⟨0, CQ.zero, CQ.zero, 0, CQ.zero, 0⟩

/-- `k1 = n*...; a1 = n*...; ...` (source lines 113-118). -/
def PolMat.scale (n : ℚ) (M : PolMat) : PolMat :=
  ⟨n * M.k, CQ.scale n M.a, CQ.scale n M.rho, n * M.xsi, CQ.scale n M.b,
    n * M.zeta⟩

/-- `k += k1; a += a1; ...` (source line 119). -/
def PolMat.add (M N : PolMat) : PolMat :=
  ⟨M.k + N.k, M.a.add N.a, M.rho.add N.rho, M.xsi + N.xsi, M.b.add N.b,
    M.zeta + N.zeta⟩

/-- `k -= k1; a -= a1; ...` (source line 131). -/
def PolMat.sub (M N : PolMat) : PolMat :=
  ⟨M.k - N.k, M.a.sub N.a, M.rho.sub N.rho, M.xsi - N.xsi, M.b.sub N.b,
    M.zeta - N.zeta⟩

/-- Closed-form determinant by dimension (source lines 130, 133, 135, 138,
140, 143):
`p=3`: `k*xsi*zeta + 2*np.real(a*b*np.conj(rho)) - xsi*(abs(rho)**2) - k*(abs(b)**2) - zeta*(abs(a)**2)`;
`p=2`: `k*xsi - abs(a)**2`;  `p=1`: `k`. -/
def detP (p : ℕ) (M : PolMat) : ℚ :=
  match p with
  | 3 => M.k * M.xsi * M.zeta + 2 * ((M.a.mul M.b).mul M.rho.conj).re
      - M.xsi * M.rho.normSq - M.k * M.b.normSq - M.zeta * M.a.normSq
  | 2 => M.k * M.xsi - M.a.normSq
  | 1 => M.k
  | _ => 0

/-- The running sum `k += n*k1; ...` over a run of matrices, starting from
the zero accumulators of source line 108. -/
def sumScaled (n : ℚ) (ms : List PolMat) : PolMat :=
  ms.foldl (fun acc M => acc.add (M.scale n)) PolMat.zero

/-! ## Band-count dispatch of `main` (source lines 236-244)

    if bands==9:
        p = 3
    elif bands==4:
        p = 2
    elif bands==1:
        p = 1
    else:
        print 'incorrect number of bands'
        return

The `else` branch prints its diagnostic and falls out of `main` with a
plain `return`; the interpreter then ends the process normally, i.e. with
exit status 0 (unlike the unreadable-file paths, which call
`sys.exit(1)`).  The check runs before the p-value loop (source line 257)
and before any output file is created (source line 292). -/

inductive Diagnostic where
  | incorrectNumberOfBands
  | couldNotReadFile
deriving DecidableEq

inductive BandOutcome where
  /-- Control continues into the computation with dimension `p`. -/
  | proceed (p : ℕ)
  /-- `main` stops before any computation; the process ends with the given
  exit status after reporting the given diagnostic. -/
  | stop (d : Diagnostic) (exitStatus : ℕ)
deriving DecidableEq

def checkBands (bands : ℕ) : BandOutcome :=
  if bands = 9 then .proceed 3
  else if bands = 4 then .proceed 2
  else if bands = 1 then .proceed 1
  else .stop .incorrectNumberOfBands 0

/-! ## Concrete inputs used in counterexamples and witnesses -/

/-- P-value matrix of a pixel whose only significant entry is at
`(ell, j) = (1, 1)`: row 0 never fires, so the pixel is never latched,
yet the `cmap == 0` mask still writes `smap` there. -/
def pvmC2 : ℕ → ℕ → ℚ := fun e j => if e = 1 ∧ j = 1 then 0 else 5

/-- P-value matrix of a pixel with first significant entry at
`(ell, j) = (0, 1)`. -/
def pvmW : ℕ → ℕ → ℚ := fun e j => if e = 0 ∧ j = 1 then 0 else 5

/-- `log` stand-in for inputs whose statistic value is irrelevant. -/
def logZero : ℚ → ℚ := fun _ => 0

/-- chi-squared cdf stand-in for the C4 counterexample: 1 up to one degree
of freedom, 0 above; maps into [0,1] and is non-increasing in the degrees
of freedom. -/
def cdfStep : ℚ → ℕ → ℚ := fun _ d => if d ≤ 1 then 1 else 0

/-- Constant-zero cdf stand-in; maps into [0,1]. -/
def cdfZero : ℚ → ℕ → ℚ := fun _ _ => 0

/-! ### Projection lemmas for one synthesis step -/

theorem synthStep_cmap (sig pv : ℚ) (ell j : ℕ) (s : PixelState) :
    (synthStep sig pv ell j s).cmap =
      if pv ≤ sig ∧ s.cmap = ell then j + 1 else s.cmap := rfl

theorem synthStep_smap (sig pv : ℚ) (ell j : ℕ) (s : PixelState) :
    (synthStep sig pv ell j s).smap =
      if pv ≤ sig ∧ s.cmap = 0 then j + 1 else s.smap := rfl

theorem synthStep_fmap (sig pv : ℚ) (ell j : ℕ) (s : PixelState) :
    (synthStep sig pv ell j s).fmap =
      if pv ≤ sig ∧ s.cmap = ell then s.fmap + 1 else s.fmap := rfl

theorem synthStep_bmap (sig pv : ℚ) (ell j : ℕ) (s : PixelState) (i : ℕ) :
    (synthStep sig pv ell j s).bmap i =
      if (pv ≤ sig ∧ s.cmap = ell) ∧ i = j then 255 else s.bmap i := rfl

/-! ### Generic invariant preservation over the folds -/

theorem runPairs_inv {sig : ℚ} {pvm : ℕ → ℕ → ℚ} (P : PixelState → Prop) :
    ∀ (l : List (ℕ × ℕ)) (s : PixelState), P s →
      (∀ q ∈ l, ∀ t, P t → P (synthStep sig (pvm q.1 q.2) q.1 q.2 t)) →
      P (runPairs sig pvm l s) := by
  intro l
  induction l with
  | nil => intro s hs _; exact hs
  | cons q rest ih =>
      intro s hs hstep
      exact ih _ (hstep q (List.mem_cons_self q rest) s hs)
        (fun q' hq' => hstep q' (List.mem_cons_of_mem q hq'))

theorem runBlock_inv {sig : ℚ} {pvm : ℕ → ℕ → ℚ} {ell : ℕ}
    (P : PixelState → Prop) :
    ∀ (js : List ℕ) (s : PixelState), P s →
      (∀ j ∈ js, ∀ t, P t → P (synthStep sig (pvm ell j) ell j t)) →
      P (runBlock sig pvm ell js s) := by
  intro js
  induction js with
  | nil => intro s hs _; exact hs
  | cons j rest ih =>
      intro s hs hstep
      exact ih _ (hstep j (List.mem_cons_self j rest) s hs)
        (fun j' hj' => hstep j' (List.mem_cons_of_mem j hj'))

theorem synthesize_inv {kk : ℕ} {sig : ℚ} {pvm : ℕ → ℕ → ℚ}
    (P : PixelState → Prop) (hinit : P initState)
    (hstep : ∀ pv ell j t, P t → P (synthStep sig pv ell j t)) :
    P (synthesize kk sig pvm) := by
  unfold synthesize
  generalize List.range (kk - 1) = ells
  have main : ∀ (es : List ℕ) (s : PixelState), P s →
      P (es.foldl (fun t ell => runBlock sig pvm ell (synthBlockJs kk ell) t) s) := by
    intro es
    induction es with
    | nil => intro s hs; exact hs
    | cons e rest ih =>
        intro s hs
        exact ih _ (runBlock_inv P _ _ hs (fun j _ t ht => hstep _ e j t ht))
  exact main ells initState hinit

/-! ### Single-step preservation facts -/

theorem step_cmap_ne_zero {sig pv : ℚ} {ell j : ℕ} {s : PixelState}
    (h : s.cmap ≠ 0) : (synthStep sig pv ell j s).cmap ≠ 0 := by
  rw [synthStep_cmap]; split <;> simp [h]

theorem step_smap_frozen {sig pv : ℚ} {ell j : ℕ} {s : PixelState}
    (h : s.cmap ≠ 0) : (synthStep sig pv ell j s).smap = s.smap := by
  rw [synthStep_smap, if_neg]; rintro ⟨-, hc⟩; exact h hc

theorem step_freeze_of_cmap_ne (sig pv : ℚ) (ell j : ℕ) (s : PixelState)
    (h : s.cmap ≠ ell) :
    (synthStep sig pv ell j s).cmap = s.cmap ∧
    (synthStep sig pv ell j s).fmap = s.fmap ∧
    ∀ i, (synthStep sig pv ell j s).bmap i = s.bmap i := by
  refine ⟨?_, ?_, ?_⟩
  · rw [synthStep_cmap, if_neg]; rintro ⟨-, hc⟩; exact h hc
  · rw [synthStep_fmap, if_neg]; rintro ⟨-, hc⟩; exact h hc
  · intro i; rw [synthStep_bmap, if_neg]; rintro ⟨⟨-, hc⟩, -⟩; exact h hc

theorem step_freeze_of_pv_gt (sig pv : ℚ) (ell j : ℕ) (s : PixelState)
    (h : ¬ pv ≤ sig) :
    (synthStep sig pv ell j s).cmap = s.cmap ∧
    (synthStep sig pv ell j s).smap = s.smap ∧
    (synthStep sig pv ell j s).fmap = s.fmap ∧
    ∀ i, (synthStep sig pv ell j s).bmap i = s.bmap i := by
  refine ⟨?_, ?_, ?_, ?_⟩
  · rw [synthStep_cmap, if_neg]; rintro ⟨hp, -⟩; exact h hp
  · rw [synthStep_smap, if_neg]; rintro ⟨hp, -⟩; exact h hp
  · rw [synthStep_fmap, if_neg]; rintro ⟨hp, -⟩; exact h hp
  · intro i; rw [synthStep_bmap, if_neg]; rintro ⟨⟨hp, -⟩, -⟩; exact h hp

theorem step_smap_ne_zero {sig pv : ℚ} {ell j : ℕ} {s : PixelState}
    (h : s.smap ≠ 0) : (synthStep sig pv ell j s).smap ≠ 0 := by
  rw [synthStep_smap]; split <;> simp [h]

theorem step_bmap_255 {sig pv : ℚ} {ell j : ℕ} {s : PixelState} {i : ℕ}
    (h : s.bmap i = 255) : (synthStep sig pv ell j s).bmap i = 255 := by
  rw [synthStep_bmap]; split <;> simp [h]

/-- Invariant: either `smap` has been written, or `cmap` is still 0. -/
theorem step_smap_or_cmap {sig pv : ℚ} {ell j : ℕ} {s : PixelState}
    (h : s.smap ≠ 0 ∨ s.cmap = 0) :
    (synthStep sig pv ell j s).smap ≠ 0 ∨ (synthStep sig pv ell j s).cmap = 0 := by
  rcases h with h | h
  · exact Or.inl (step_smap_ne_zero h)
  · rw [synthStep_smap, synthStep_cmap]
    by_cases hp : pv ≤ sig ∧ s.cmap = 0
    · left; rw [if_pos hp]; exact Nat.succ_ne_zero j
    · right
      rw [if_neg, h]
      rintro ⟨hpv, -⟩
      exact hp ⟨hpv, h⟩

/-- Invariant: `fmap` has been incremented iff `cmap` has been written. -/
theorem step_fmap_iff_cmap {sig pv : ℚ} {ell j : ℕ} {s : PixelState}
    (h : s.fmap = 0 ↔ s.cmap = 0) :
    ((synthStep sig pv ell j s).fmap = 0 ↔ (synthStep sig pv ell j s).cmap = 0) := by
  rw [synthStep_fmap, synthStep_cmap]
  split <;> simp [h]

/-- Invariant: while `cmap` is 0, no bitemporal layer has been marked. -/
theorem step_bmap_of_cmap {sig pv : ℚ} {ell j : ℕ} {s : PixelState}
    (h : s.cmap = 0 → ∀ i, s.bmap i ≠ 255) :
    (synthStep sig pv ell j s).cmap = 0 → ∀ i, (synthStep sig pv ell j s).bmap i ≠ 255 := by
  rw [synthStep_cmap]
  split
  · intro hc; exact absurd hc (Nat.succ_ne_zero j)
  · intro hc i
    rw [synthStep_bmap, if_neg]
    · exact h hc i
    · rename_i hcond
      rintro ⟨hand, -⟩; exact hcond hand

/-! ### The outer loop as a fold over the list of `ell` values -/

theorem synthesize_eq_runBlocks (kk : ℕ) (sig : ℚ) (pvm : ℕ → ℕ → ℚ) :
    synthesize kk sig pvm = runBlocks kk sig pvm (List.range (kk - 1)) initState := rfl

theorem runBlock_cons (sig : ℚ) (pvm : ℕ → ℕ → ℚ) (ell j : ℕ) (js : List ℕ)
    (s : PixelState) :
    runBlock sig pvm ell (j :: js) s =
      runBlock sig pvm ell js (synthStep sig (pvm ell j) ell j s) := rfl

theorem runPairs_append (sig : ℚ) (pvm : ℕ → ℕ → ℚ) (l1 l2 : List (ℕ × ℕ))
    (s : PixelState) :
    runPairs sig pvm (l1 ++ l2) s = runPairs sig pvm l2 (runPairs sig pvm l1 s) :=
  List.foldl_append _ _ _ _

theorem runBlocks_eq_runPairs (kk : ℕ) (sig : ℚ) (pvm : ℕ → ℕ → ℚ) :
    ∀ (ells : List ℕ) (s : PixelState),
      runBlocks kk sig pvm ells s =
        runPairs sig pvm
          (ells.flatMap (fun i => (List.range' i (kk - 1 - i)).map (fun j => (i, j)))) s := by
  intro ells
  induction ells with
  | nil => intro s; rfl
  | cons e rest ih =>
      intro s
      rw [List.flatMap_cons, runPairs_append, runBlocks, List.foldl_cons, ← runBlocks, ih]
      congr 1
      unfold runPairs runBlock synthBlockJs
      rw [List.foldl_map]

theorem synthesize_eq_runPairs (kk : ℕ) (sig : ℚ) (pvm : ℕ → ℕ → ℚ) :
    synthesize kk sig pvm = runPairs sig pvm (pvIndices kk) initState := by
  rw [synthesize_eq_runBlocks, runBlocks_eq_runPairs]; rfl

/-! ### Behaviour of the first block (`ell = 0`) -/

/-- If `j0` is the first inner index of block 0 whose p-value is significant,
the block latches `cmap`, writes `smap`, increments `fmap` once and marks
bitemporal layer `j0`. -/
theorem runBlock0_found (sig : ℚ) (pvm : ℕ → ℕ → ℚ) :
    ∀ (js : List ℕ) (s : PixelState) (j0 : ℕ), s.cmap = 0 →
      js.find? (fun j => decide (pvm 0 j ≤ sig)) = some j0 →
      (runBlock sig pvm 0 js s).cmap = j0 + 1 ∧
      (runBlock sig pvm 0 js s).smap = j0 + 1 ∧
      (runBlock sig pvm 0 js s).fmap = s.fmap + 1 ∧
      (runBlock sig pvm 0 js s).bmap j0 = 255 := by
  intro js
  induction js with
  | nil => intro s j0 _ hfind; simp [List.find?] at hfind
  | cons j rest ih =>
      intro s j0 hc hfind
      rw [List.find?_cons] at hfind
      by_cases hp : pvm 0 j ≤ sig
      · rw [decide_eq_true hp] at hfind
        simp only [Option.some.injEq] at hfind
        subst hfind
        rw [runBlock_cons]
        have hfire : pvm 0 j ≤ sig ∧ s.cmap = 0 := ⟨hp, hc⟩
        have h1 : (synthStep sig (pvm 0 j) 0 j s).cmap = j + 1 := by
          rw [synthStep_cmap, if_pos hfire]
        have h2 : (synthStep sig (pvm 0 j) 0 j s).smap = j + 1 := by
          rw [synthStep_smap, if_pos hfire]
        have h3 : (synthStep sig (pvm 0 j) 0 j s).fmap = s.fmap + 1 := by
          rw [synthStep_fmap, if_pos hfire]
        have h4 : (synthStep sig (pvm 0 j) 0 j s).bmap j = 255 := by
          rw [synthStep_bmap, if_pos ⟨hfire, rfl⟩]
        exact runBlock_inv
          (fun t => t.cmap = j + 1 ∧ t.smap = j + 1 ∧ t.fmap = s.fmap + 1 ∧ t.bmap j = 255)
          rest _ ⟨h1, h2, h3, h4⟩
          (by
            intro j' _ t ⟨ht1, ht2, ht3, ht4⟩
            have hne : t.cmap ≠ 0 := by rw [ht1]; exact Nat.succ_ne_zero j
            obtain ⟨hc', hf', hb'⟩ :=
              step_freeze_of_cmap_ne sig (pvm 0 j') 0 j' t hne
            exact ⟨hc'.trans ht1, (step_smap_frozen hne).trans ht2,
              hf'.trans ht3, (hb' j).trans ht4⟩)
      · rw [decide_eq_false hp] at hfind
        simp only at hfind
        rw [runBlock_cons]
        obtain ⟨hc', -, hf', -⟩ :=
          step_freeze_of_pv_gt sig (pvm 0 j) 0 j s hp
        have := ih (synthStep sig (pvm 0 j) 0 j s) j0 (hc'.trans hc) hfind
        rwa [hf'] at this

/-- A block whose p-values are all insignificant changes nothing. -/
theorem runBlock_nosig (sig : ℚ) (pvm : ℕ → ℕ → ℚ) (ell : ℕ)
    (js : List ℕ) (s : PixelState) (h : ∀ j ∈ js, ¬ pvm ell j ≤ sig) :
    (runBlock sig pvm ell js s).cmap = s.cmap ∧
    (runBlock sig pvm ell js s).smap = s.smap ∧
    (runBlock sig pvm ell js s).fmap = s.fmap ∧
    ∀ i, (runBlock sig pvm ell js s).bmap i = s.bmap i := by
  refine runBlock_inv
    (fun t => t.cmap = s.cmap ∧ t.smap = s.smap ∧ t.fmap = s.fmap ∧
      ∀ i, t.bmap i = s.bmap i)
    js s ⟨rfl, rfl, rfl, fun _ => rfl⟩ ?_
  intro j hj t ⟨ht1, ht2, ht3, ht4⟩
  obtain ⟨hc', hs', hf', hb'⟩ :=
    step_freeze_of_pv_gt sig (pvm ell j) ell j t (h j hj)
  exact ⟨hc'.trans ht1, hs'.trans ht2, hf'.trans ht3,
    fun i => (hb' i).trans (ht4 i)⟩

/-- A traversal whose p-values are all insignificant changes nothing. -/
theorem runPairs_nosig {sig : ℚ} {pvm : ℕ → ℕ → ℚ}
    (l : List (ℕ × ℕ)) (s : PixelState) (h : ∀ q ∈ l, ¬ pvm q.1 q.2 ≤ sig) :
    (runPairs sig pvm l s).cmap = s.cmap ∧
    (runPairs sig pvm l s).smap = s.smap ∧
    (runPairs sig pvm l s).fmap = s.fmap ∧
    ∀ i, (runPairs sig pvm l s).bmap i = s.bmap i := by
  refine runPairs_inv
    (fun t => t.cmap = s.cmap ∧ t.smap = s.smap ∧ t.fmap = s.fmap ∧
      ∀ i, t.bmap i = s.bmap i)
    l s ⟨rfl, rfl, rfl, fun _ => rfl⟩ ?_
  intro q hq t ⟨ht1, ht2, ht3, ht4⟩
  obtain ⟨hc', hs', hf', hb'⟩ :=
    step_freeze_of_pv_gt sig (pvm q.1 q.2) q.1 q.2 t (h q hq)
  exact ⟨hc'.trans ht1, hs'.trans ht2, hf'.trans ht3,
    fun i => (hb' i).trans (ht4 i)⟩

/-- A block at `ell` never fires for a pixel whose latch differs from `ell`:
`cmap`, `fmap` and `bmap` are left untouched. -/
theorem runBlock_freeze (sig : ℚ) (pvm : ℕ → ℕ → ℚ) (ell : ℕ)
    (js : List ℕ) (s : PixelState) (h : s.cmap ≠ ell) :
    (runBlock sig pvm ell js s).cmap = s.cmap ∧
    (runBlock sig pvm ell js s).fmap = s.fmap ∧
    ∀ i, (runBlock sig pvm ell js s).bmap i = s.bmap i := by
  refine runBlock_inv
    (fun t => t.cmap = s.cmap ∧ t.fmap = s.fmap ∧ ∀ i, t.bmap i = s.bmap i)
    js s ⟨rfl, rfl, fun _ => rfl⟩ ?_
  intro j _ t ⟨ht1, ht2, ht3⟩
  obtain ⟨hc', hf', hb'⟩ :=
    step_freeze_of_cmap_ne sig (pvm ell j) ell j t (ht1 ▸ h)
  exact ⟨hc'.trans ht1, hf'.trans ht2, fun i => (hb' i).trans (ht3 i)⟩

theorem runPairs_cons (sig : ℚ) (pvm : ℕ → ℕ → ℚ) (q : ℕ × ℕ)
    (l : List (ℕ × ℕ)) (s : PixelState) :
    runPairs sig pvm (q :: l) s =
      runPairs sig pvm l (synthStep sig (pvm q.1 q.2) q.1 q.2 s) := rfl

theorem runBlocks_cons (kk : ℕ) (sig : ℚ) (pvm : ℕ → ℕ → ℚ) (e : ℕ)
    (ells : List ℕ) (s : PixelState) :
    runBlocks kk sig pvm (e :: ells) s =
      runBlocks kk sig pvm ells (runBlock sig pvm e (synthBlockJs kk e) s) := rfl

theorem runBlocks_inv {kk : ℕ} {sig : ℚ} {pvm : ℕ → ℕ → ℚ}
    (P : PixelState → Prop)
    (hstep : ∀ pv ell j t, P t → P (synthStep sig pv ell j t)) :
    ∀ (ells : List ℕ) (s : PixelState), P s → P (runBlocks kk sig pvm ells s) := by
  intro ells
  induction ells with
  | nil => intro s hs; exact hs
  | cons e rest ih =>
      intro s hs
      rw [runBlocks_cons]
      exact ih _ (runBlock_inv P _ _ hs (fun j _ t ht => hstep _ e j t ht))

/-- The first significant p-value of row `ell = 0` (if any) decides the final
`cmap`/`smap`/`bmap j0` values of the whole pass. -/
theorem synthesize_found {kk : ℕ} {sig : ℚ} {pvm : ℕ → ℕ → ℚ} {j0 : ℕ}
    (hfind : (List.range (kk - 1)).find? (fun j => decide (pvm 0 j ≤ sig)) = some j0) :
    (synthesize kk sig pvm).cmap ≠ 0 ∧
    (synthesize kk sig pvm).smap = j0 + 1 ∧
    (synthesize kk sig pvm).bmap j0 = 255 := by
  have hmem : j0 ∈ List.range (kk - 1) := List.mem_of_find?_eq_some hfind
  have hpos : 0 < kk - 1 := Nat.pos_of_ne_zero (by
    intro h0; rw [h0] at hmem; exact absurd hmem (List.not_mem_nil j0))
  obtain ⟨m, hm⟩ : ∃ m, kk - 1 = m + 1 :=
    ⟨kk - 1 - 1, (Nat.succ_pred_eq_of_pos hpos).symm⟩
  have hjs : synthBlockJs kk 0 = List.range (kk - 1) := by
    unfold synthBlockJs
    rw [Nat.sub_zero, List.range_eq_range']
  rw [synthesize_eq_runBlocks, hm, List.range_succ_eq_map, runBlocks_cons]
  have hblock := runBlock0_found sig pvm
    (synthBlockJs kk 0) initState j0 rfl (by rw [hjs]; exact hfind)
  refine runBlocks_inv
    (fun t => t.cmap ≠ 0 ∧ t.smap = j0 + 1 ∧ t.bmap j0 = 255) ?_ _ _
    ⟨by rw [hblock.1]; exact Nat.succ_ne_zero j0, hblock.2.1, hblock.2.2.2⟩
  intro pv ell j t ⟨ht1, ht2, ht3⟩
  exact ⟨step_cmap_ne_zero ht1, (step_smap_frozen ht1).trans ht2, step_bmap_255 ht3⟩

/-- If no p-value of row `ell = 0` is significant, the pixel is never latched:
`cmap` and `fmap` stay 0 and no bitemporal layer is marked. -/
theorem synthesize_nofirst {kk : ℕ} {sig : ℚ} {pvm : ℕ → ℕ → ℚ}
    (hfind : (List.range (kk - 1)).find? (fun j => decide (pvm 0 j ≤ sig)) = none) :
    (synthesize kk sig pvm).cmap = 0 ∧
    (synthesize kk sig pvm).fmap = 0 ∧
    ∀ i, (synthesize kk sig pvm).bmap i = 0 := by
  have hnone := List.find?_eq_none.mp hfind
  rcases Nat.eq_zero_or_pos (kk - 1) with h0 | hpos
  · rw [synthesize_eq_runBlocks, h0]
    exact ⟨rfl, rfl, fun _ => rfl⟩
  · obtain ⟨m, hm⟩ : ∃ m, kk - 1 = m + 1 :=
      ⟨kk - 1 - 1, (Nat.succ_pred_eq_of_pos hpos).symm⟩
    have hjs : synthBlockJs kk 0 = List.range (kk - 1) := by
      unfold synthBlockJs
      rw [Nat.sub_zero, List.range_eq_range']
    rw [synthesize_eq_runBlocks, hm, List.range_succ_eq_map, runBlocks_cons]
    have hblock := runBlock_nosig sig pvm 0
      (synthBlockJs kk 0) initState
      (by
        rw [hjs]; intro j hj hle
        exact hnone j hj (decide_eq_true hle))
    have main : ∀ (es : List ℕ), (∀ e ∈ es, e ≠ 0) → ∀ (s : PixelState),
        s.cmap = 0 → s.fmap = 0 → (∀ i, s.bmap i = 0) →
        (runBlocks kk sig pvm es s).cmap = 0 ∧
        (runBlocks kk sig pvm es s).fmap = 0 ∧
        ∀ i, (runBlocks kk sig pvm es s).bmap i = 0 := by
      intro es
      induction es with
      | nil => intro _ s h1 h2 h3; exact ⟨h1, h2, h3⟩
      | cons e rest ih =>
          intro hmem s h1 h2 h3
          rw [runBlocks_cons]
          have hne : s.cmap ≠ e := by
            rw [h1]; exact fun h => (hmem e (List.mem_cons_self e rest)) h.symm
          obtain ⟨hc', hf', hb'⟩ := runBlock_freeze sig pvm e (synthBlockJs kk e) s hne
          exact ih (fun e' he' => hmem e' (List.mem_cons_of_mem e he'))
            _ (hc'.trans h1) (hf'.trans h2) (fun i => (hb' i).trans (h3 i))
    refine main _ ?_ _ (hblock.1.trans rfl) (hblock.2.2.1.trans rfl)
      (fun i => (hblock.2.2.2 i).trans rfl)
    intro e he
    simp only [List.mem_map] at he
    obtain ⟨x, -, hx⟩ := he
    exact hx ▸ Nat.succ_ne_zero x

/-- Final `cmap` is nonzero iff some entry of row 0 is significant. -/
theorem cmap_char (kk : ℕ) (sig : ℚ) (pvm : ℕ → ℕ → ℚ) :
    (synthesize kk sig pvm).cmap ≠ 0 ↔
      ∃ j ∈ List.range (kk - 1), pvm 0 j ≤ sig := by
  cases hfind : (List.range (kk - 1)).find? (fun j => decide (pvm 0 j ≤ sig)) with
  | none =>
      refine iff_of_false (by simp [(synthesize_nofirst hfind).1]) ?_
      rintro ⟨j, hj, hle⟩
      exact List.find?_eq_none.mp hfind j hj (decide_eq_true hle)
  | some j0 =>
      have hp := List.find?_some hfind
      simp only [decide_eq_true_eq] at hp
      exact iff_of_true (synthesize_found hfind).1
        ⟨j0, List.mem_of_find?_eq_some hfind, hp⟩

/-- Final `fmap` is zero iff final `cmap` is zero. -/
theorem fmap_iff_cmap (kk : ℕ) (sig : ℚ) (pvm : ℕ → ℕ → ℚ) :
    (synthesize kk sig pvm).fmap = 0 ↔ (synthesize kk sig pvm).cmap = 0 :=
  synthesize_inv (fun t => (t.fmap = 0 ↔ t.cmap = 0)) Iff.rfl
    (fun _ _ _ _ ht => step_fmap_iff_cmap ht)

/-- While `cmap` is zero no bitemporal layer was ever marked. -/
theorem bmap_zero_of_cmap (kk : ℕ) (sig : ℚ) (pvm : ℕ → ℕ → ℚ) :
    (synthesize kk sig pvm).cmap = 0 →
      ∀ i, (synthesize kk sig pvm).bmap i ≠ 255 :=
  synthesize_inv (fun t => t.cmap = 0 → ∀ i, t.bmap i ≠ 255)
    (fun _ _ => by simp [initState])
    (fun _ _ _ _ ht => step_bmap_of_cmap ht)

/-- Final `smap` is nonzero iff some entry of the whole traversal is
significant. -/
theorem smap_char (kk : ℕ) (sig : ℚ) (pvm : ℕ → ℕ → ℚ) :
    (synthesize kk sig pvm).smap ≠ 0 ↔
      ∃ q ∈ pvIndices kk, pvm q.1 q.2 ≤ sig := by
  constructor
  · intro h
    by_contra hno
    refine h ?_
    rw [synthesize_eq_runPairs]
    have := runPairs_nosig (pvIndices kk) initState
      (fun q hq hle => hno ⟨q, hq, hle⟩)
    exact this.2.1
  · rintro ⟨q, hq, hle⟩
    obtain ⟨l1, l2, hsplit⟩ := List.append_of_mem hq
    rw [synthesize_eq_runPairs, hsplit, runPairs_append, runPairs_cons]
    have hQ : (runPairs sig pvm l1 initState).smap ≠ 0 ∨
        (runPairs sig pvm l1 initState).cmap = 0 :=
      runPairs_inv (fun t => t.smap ≠ 0 ∨ t.cmap = 0) l1 initState (Or.inr rfl)
        (fun _ _ t ht => step_smap_or_cmap ht)
    have hstep : (synthStep sig (pvm q.1 q.2) q.1 q.2
        (runPairs sig pvm l1 initState)).smap ≠ 0 := by
      rcases hQ with h1 | h1
      · exact step_smap_ne_zero h1
      · rw [synthStep_smap, if_pos ⟨hle, h1⟩]
        exact Nat.succ_ne_zero q.2
    exact runPairs_inv (fun t => t.smap ≠ 0) l2 _ hstep
      (fun _ _ t ht => step_smap_ne_zero ht)

/-- Some bitemporal layer below `k-1` is marked iff final `cmap` is nonzero. -/
theorem bmap_char (kk : ℕ) (sig : ℚ) (pvm : ℕ → ℕ → ℚ) :
    (∃ i ∈ List.range (kk - 1), (synthesize kk sig pvm).bmap i = 255) ↔
      (synthesize kk sig pvm).cmap ≠ 0 := by
  constructor
  · rintro ⟨i, -, h255⟩ hc
    exact bmap_zero_of_cmap kk sig pvm hc i h255
  · intro hc
    obtain ⟨j, hj, hle⟩ := (cmap_char kk sig pvm).mp hc
    have hsome : ((List.range (kk - 1)).find?
        (fun j => decide (pvm 0 j ≤ sig))).isSome := by
      rw [List.find?_isSome]
      exact ⟨j, hj, decide_eq_true hle⟩
    obtain ⟨j0, hfind⟩ := Option.isSome_iff_exists.mp hsome
    exact ⟨j0, List.mem_of_find?_eq_some hfind, (synthesize_found hfind).2.2⟩

/-! ### Monotonicity of the per-map changed-pixel predicates -/

theorem markedCmap_mono {kk : ℕ} {s1 s2 : ℚ} (h : s1 ≤ s2) (pvm : ℕ → ℕ → ℚ) :
    markedCmap kk s1 pvm = true → markedCmap kk s2 pvm = true := by
  simp only [markedCmap, decide_eq_true_eq, cmap_char]
  rintro ⟨j, hj, hle⟩
  exact ⟨j, hj, hle.trans h⟩

theorem markedSmap_mono {kk : ℕ} {s1 s2 : ℚ} (h : s1 ≤ s2) (pvm : ℕ → ℕ → ℚ) :
    markedSmap kk s1 pvm = true → markedSmap kk s2 pvm = true := by
  simp only [markedSmap, decide_eq_true_eq, smap_char]
  rintro ⟨q, hq, hle⟩
  exact ⟨q, hq, hle.trans h⟩

theorem markedFmap_eq_markedCmap (kk : ℕ) (sig : ℚ) (pvm : ℕ → ℕ → ℚ) :
    markedFmap kk sig pvm = markedCmap kk sig pvm := by
  simp only [markedFmap, markedCmap]
  exact decide_eq_decide.mpr (not_congr (fmap_iff_cmap kk sig pvm))

theorem markedBmap_eq_markedCmap (kk : ℕ) (sig : ℚ) (pvm : ℕ → ℕ → ℚ) :
    markedBmap kk sig pvm = markedCmap kk sig pvm := by
  simp only [markedBmap, markedCmap]
  rw [Bool.eq_iff_iff, List.any_eq_true, decide_eq_true_eq]
  simp only [decide_eq_true_eq]
  exact bmap_char kk sig pvm

theorem markedFmap_mono {kk : ℕ} {s1 s2 : ℚ} (h : s1 ≤ s2) (pvm : ℕ → ℕ → ℚ) :
    markedFmap kk s1 pvm = true → markedFmap kk s2 pvm = true := by
  rw [markedFmap_eq_markedCmap, markedFmap_eq_markedCmap]
  exact markedCmap_mono h pvm

theorem markedBmap_mono {kk : ℕ} {s1 s2 : ℚ} (h : s1 ≤ s2) (pvm : ℕ → ℕ → ℚ) :
    markedBmap kk s1 pvm = true → markedBmap kk s2 pvm = true := by
  rw [markedBmap_eq_markedCmap, markedBmap_eq_markedCmap]
  exact markedCmap_mono h pvm

/-! ### Frequency-map bound (for claim C10) -/

/-- Within one block the hit can fire at most once: after a hit, `cmap`
becomes `j + 1 > ell` and the latch condition is false for the rest of the
block. -/
theorem runBlock_fmap_le {sig : ℚ} {pvm : ℕ → ℕ → ℚ} {ell : ℕ} :
    ∀ (js : List ℕ), (∀ j ∈ js, ell ≤ j) → ∀ (s : PixelState),
      (runBlock sig pvm ell js s).fmap ≤ s.fmap + 1 := by
  intro js
  induction js with
  | nil => intro _ s; exact Nat.le_succ s.fmap
  | cons j rest ih =>
      intro hmem s
      rw [runBlock_cons]
      by_cases hfire : pvm ell j ≤ sig ∧ s.cmap = ell
      · have hcm : (synthStep sig (pvm ell j) ell j s).cmap = j + 1 := by
          rw [synthStep_cmap, if_pos hfire]
        have hfm : (synthStep sig (pvm ell j) ell j s).fmap = s.fmap + 1 := by
          rw [synthStep_fmap, if_pos hfire]
        have hne : (synthStep sig (pvm ell j) ell j s).cmap ≠ ell := by
          rw [hcm]
          have := hmem j (List.mem_cons_self j rest)
          omega
        have hfrozen :=
          (runBlock_freeze sig pvm ell rest (synthStep sig (pvm ell j) ell j s) hne).2.1
        rw [hfrozen, hfm]
      · have hcm : (synthStep sig (pvm ell j) ell j s).cmap = s.cmap := by
          rw [synthStep_cmap, if_neg hfire]
        have hfm : (synthStep sig (pvm ell j) ell j s).fmap = s.fmap := by
          rw [synthStep_fmap, if_neg hfire]
        have := ih (fun j' hj' => hmem j' (List.mem_cons_of_mem j hj'))
          (synthStep sig (pvm ell j) ell j s)
        rwa [hfm] at this

theorem runBlocks_fmap_le (kk : ℕ) (sig : ℚ) (pvm : ℕ → ℕ → ℚ) :
    ∀ (ells : List ℕ) (s : PixelState),
      (runBlocks kk sig pvm ells s).fmap ≤ s.fmap + ells.length := by
  intro ells
  induction ells with
  | nil => intro s; exact Nat.le_refl s.fmap
  | cons e rest ih =>
      intro s
      rw [runBlocks_cons]
      have hblock : (runBlock sig pvm e (synthBlockJs kk e) s).fmap ≤ s.fmap + 1 :=
        runBlock_fmap_le (synthBlockJs kk e)
          (fun j hj => (List.mem_range'_1.mp hj).1) s
      calc (runBlocks kk sig pvm rest
              (runBlock sig pvm e (synthBlockJs kk e) s)).fmap
      _ ≤ (runBlock sig pvm e (synthBlockJs kk e) s).fmap + rest.length := ih _
      _ ≤ s.fmap + 1 + rest.length := Nat.add_le_add_right hblock _
      _ = s.fmap + (e :: rest).length := by
            simp only [List.length_cons]; omega

/-! ### Equality of the spec pseudocode pass with the source pass -/

theorem range_drop (n m : ℕ) : (List.range n).drop m = List.range' m (n - m) := by
  apply List.ext_getElem
  · simp
  · intro i h1 h2
    simp [List.getElem_drop, List.getElem_range, List.getElem_range']

theorem specStep_eq (sig pv : ℚ) (ell j : ℕ) (s : PixelState) :
    specStep sig pv ell j s = synthStep sig pv ell j s := by
  ext i
  · simp [specStep, synthStep, Bool.and_eq_true, decide_eq_true_eq]
  · simp [specStep, synthStep, Bool.and_eq_true, decide_eq_true_eq]
  · simp [specStep, synthStep, Bool.and_eq_true, decide_eq_true_eq]
  · simp only [specStep, synthStep, Bool.and_assoc]
    by_cases h1 : pv ≤ sig <;> by_cases h2 : s.cmap = ell <;> by_cases h3 : i = j <;>
      simp [h1, h2, h3]

theorem specSynthesize_eq (kk : ℕ) (sig : ℚ) (pvm : ℕ → ℕ → ℚ) :
    specSynthesize kk sig pvm = synthesize kk sig pvm := by
  unfold specSynthesize synthesize
  apply List.foldl_ext
  intro s ell _
  rw [range_drop]
  unfold runBlock synthBlockJs
  apply List.foldl_ext
  intro t j _
  exact specStep_eq sig (pvm ell j) ell j t

theorem synthesize_fmap_le (kk : ℕ) (sig : ℚ) (pvm : ℕ → ℕ → ℚ) :
    (synthesize kk sig pvm).fmap ≤ kk - 1 := by
  rw [synthesize_eq_runBlocks]
  have := runBlocks_fmap_le kk sig pvm
    (List.range (kk - 1)) initState
  simpa [initState] using this

theorem sumScaled_append_one (n : ℚ) (ms : List PolMat) (M : PolMat) :
    sumScaled n (ms ++ [M]) = (sumScaled n ms).add (M.scale n) := by
  unfold sumScaled
  rw [List.foldl_append]
  rfl

theorem add_sub_cancel_mat (A B : PolMat) : (A.add B).sub B = A := by
  ext <;> simp [PolMat.add, PolMat.sub, CQ.add, CQ.sub]

/-! ## Claim theorems -/

/-- Claim C1: the Change-Map Synthesizer executes exactly the traversal and
rule set of the spec: with `cmap`, `smap`, `fmap` (and `bmap`)
zero-initialized, `ell` ascending over `0..k-2`, `j` ascending over
`ell..k-2`, the per-pixel update rules with both masks read before any
write.  The spec pseudocode pass and the source pass are equal as functions
of the p-value matrix and significance level. -/
theorem C1_synthesizer_matches_spec (kk : ℕ) (sig : ℚ) (pvm : ℕ → ℕ → ℚ) :
    specSynthesize kk sig pvm = synthesize kk sig pvm := by
  unfold specSynthesize synthesize
  apply List.foldl_ext
  intro s ell _
  rw [range_drop]
  unfold runBlock synthBlockJs
  apply List.foldl_ext
  intro t j _
  exact specStep_eq sig (pvm ell j) ell j t

/-- Claim C2 (counterexample): it is false that `smap` is 0 whenever no
change was detected.  At `k = 3`, significance 1, with the only
significant p-value at `(ell, j) = (1, 1)`, the pixel is never latched
(`cmap = 0`, `fmap = 0`) yet `smap = 2`. -/
theorem C2_counterexample :
    ¬ (∀ (kk : ℕ) (sig : ℚ) (pvm : ℕ → ℕ → ℚ),
        (synthesize kk sig pvm).cmap = 0 ∧ (synthesize kk sig pvm).fmap = 0 →
          (synthesize kk sig pvm).smap = 0) := by
  intro h
  exact absurd (h 3 1 pvmC2 (by decide)) (by decide)

/-- Claim C2 (amended): if some entry of row 0 is significant — `j0` being
the first such inner index — then the pixel is latched (`cmap ≠ 0`) and the
final `smap` is exactly `j0 + 1`, never overwritten after `cmap` leaves 0;
without such an entry `cmap` stays 0 but `smap` may still be written by
later rows. -/
theorem C2_amended_thm (kk : ℕ) (sig : ℚ) (pvm : ℕ → ℕ → ℚ) (j0 : ℕ)
    (hfind : (List.range (kk - 1)).find? (fun j => decide (pvm 0 j ≤ sig)) =
      some j0) :
    (synthesize kk sig pvm).smap = j0 + 1 ∧ (synthesize kk sig pvm).cmap ≠ 0 :=
  ⟨(synthesize_found hfind).2.1, (synthesize_found hfind).1⟩

theorem C2_amended_witness :
    (List.range (3 - 1)).find? (fun j => decide (pvmW 0 j ≤ 1)) = some 1 ∧
    ((synthesize 3 1 pvmW).smap = 1 + 1 ∧ (synthesize 3 1 pvmW).cmap ≠ 0) :=
  ⟨by decide, C2_amended_thm 3 1 pvmW 1 (by decide)⟩

/-- Claim C5: subtracting the last accumulated (scaled) matrix from the
running sums and then applying the closed-form determinant equals the
determinant computed directly from the sum of the first `t-1` scaled
matrices, for every dimension `p` and every run `ms ++ [M]` (exact
arithmetic). -/
theorem C5_incremental_det (n : ℚ) (p : ℕ) (ms : List PolMat) (M : PolMat) :
    detP p ((sumScaled n (ms ++ [M])).sub (M.scale n)) =
      detP p (sumScaled n ms) := by
  rw [sumScaled_append_one, add_sub_cancel_mat]

/-- Claim C6: with `eps > 0` (in the source `eps = sys.float_info.min`),
after NaN replacement and clamping every argument handed to `np.log` in the
engine — for each of the three determinant rasters, at every pixel,
including NaN and all-zero / singular (non-positive) determinants — is
strictly positive, so no logarithm yields an error or `-inf`. -/
theorem C6_log_args_positive (eps : ℚ) (heps : 0 < eps)
    (d1 d2 d3 : Option ℚ) :
    0 < logArg eps d1 ∧ 0 < logArg eps d2 ∧ 0 < logArg eps d3 := by
  have pos : ∀ d : Option ℚ, 0 < logArg eps d := by
    intro d
    unfold logArg clampDet
    split
    · exact heps
    · rename_i hgt
      exact heps.trans (lt_of_not_le hgt)
  exact ⟨pos d1, pos d2, pos d3⟩

theorem C6_witness :
    (0 : ℚ) < 1 ∧
    (0 < logArg 1 none ∧ 0 < logArg 1 (some 0) ∧ 0 < logArg 1 (some (-3))) :=
  ⟨by decide, C6_log_args_positive 1 (by decide) none (some 0) (some (-3))⟩

/-- Claim C8: for a stack of exactly `k = 2` images the populate loop
writes exactly the single entry `(0, 0)`, and after the synthesis pass
`cmap` equals `smap` at every pixel. -/
theorem C8_two_images (sig : ℚ) (pvm : ℕ → ℕ → ℚ) :
    pvIndices 2 = [(0, 0)] ∧
    (synthesize 2 sig pvm).cmap = (synthesize 2 sig pvm).smap :=
  ⟨rfl, rfl⟩

/-- Claim C9 (counterexample): on a band count other than 1, 4, 9 the
program does report its diagnostic and stops before any computation, but
the `else` branch is a plain `return` from `main`, so the process exit
status is 0 — not non-zero as claimed. -/
theorem C9_counterexample :
    checkBands 2 = BandOutcome.stop Diagnostic.incorrectNumberOfBands 0 ∧
    ¬ (∃ d st, checkBands 2 = BandOutcome.stop d st ∧ st ≠ 0) := by
  refine ⟨rfl, ?_⟩
  rintro ⟨d, st, heq, hne⟩
  have h0 : BandOutcome.stop Diagnostic.incorrectNumberOfBands 0 =
      BandOutcome.stop d st := heq
  injection h0 with h1 h2
  exact hne h2.symm

/-- Claim C9 (amended): when the first raster's band count is not 1, 4 or
9, `main` reports the band-count diagnostic and stops before any
computation (no p-value computed, no output written), but the process exit
status is 0 (plain `return`), not non-zero. -/
theorem C9_amended_thm (bands : ℕ) (h1 : bands ≠ 1) (h4 : bands ≠ 4)
    (h9 : bands ≠ 9) :
    checkBands bands = BandOutcome.stop Diagnostic.incorrectNumberOfBands 0 := by
  unfold checkBands
  rw [if_neg h9, if_neg h4, if_neg h1]

theorem C9_amended_witness :
    ((7 : ℕ) ≠ 1 ∧ (7 : ℕ) ≠ 4 ∧ (7 : ℕ) ≠ 9) ∧
    checkBands 7 = BandOutcome.stop Diagnostic.incorrectNumberOfBands 0 :=
  ⟨by decide, C9_amended_thm 7 (by decide) (by decide) (by decide)⟩

/-- Claim C10: within each outer iteration `ell` the frequency map is
incremented at most once (the hit that increments it moves `cmap` to
`j + 1 > ell`, falsifying the latch for the rest of the block), and the
final `fmap` value is at most `k - 1`. -/
theorem C10_fmap_bound (kk : ℕ) (sig : ℚ) (pvm : ℕ → ℕ → ℚ) :
    (∀ (ell : ℕ) (s : PixelState),
      (runBlock sig pvm ell (synthBlockJs kk ell) s).fmap ≤ s.fmap + 1) ∧
    (synthesize kk sig pvm).fmap ≤ kk - 1 :=
  ⟨fun ell s => runBlock_fmap_le (synthBlockJs kk ell)
      (fun _ hj => (List.mem_range'_1.mp hj).1) s,
   synthesize_fmap_le kk sig pvm⟩

/-- Claim C3: for every sub-sequence length, dimension and equivalent-look
count, the Test Statistic Engine computes exactly the spec's `lnR`,
`f = p²`, `ρ`, `ω²`, `Z = −2ρ·lnR` and returns
`pv = 1 − [(1−ω²)·χ²_cdf(Z; f) + ω²·χ²_cdf(Z; f+4)]`: the source
transcription and the spec-formula transcription agree for every `log`
and `cdf` collaborator and all inputs. -/
theorem C3_engine_matches_spec (log : ℚ → ℚ) (cdf : ℚ → ℕ → ℚ) (n : ℚ)
    (p jt : ℕ) (l1 l2 l3 : ℚ) :
    PVpv log cdf n p jt l1 l2 l3 = PVspec log cdf n p jt l1 l2 l3 := by
  have hrho : rhoj n p jt = rhoSpec n p jt := rfl
  have homega : omega2j n p jt = omega2Spec n p jt := by
    unfold omega2j omega2Spec
    rw [hrho]
    ring
  have hZ : Zj log n p jt l1 l2 l3 = Zspec log n p jt l1 l2 l3 := by
    unfold Zj Zspec lnRj lnRspec
    rw [hrho]
  unfold PVpv PVspec
  rw [homega, hZ]
  rfl

/-- Claim C4 (counterexample): it is false that the returned value lies in
[0,1] for every positive `n` merely because `chi2_cdf` maps into [0,1] and
is non-increasing in its degrees-of-freedom argument.  At `p = 1`,
`jt = 2`, `n = 1/5` the Bartlett weight is `ω² = −25/4` and with a cdf
satisfying both hypotheses the engine returns `−25/4 < 0`. -/
theorem C4_counterexample :
    ¬ (∀ (log : ℚ → ℚ) (cdf : ℚ → ℕ → ℚ),
        (∀ z d, 0 ≤ cdf z d ∧ cdf z d ≤ 1) →
        (∀ z d d', d ≤ d' → cdf z d' ≤ cdf z d) →
        ∀ (n : ℚ) (p jt : ℕ) (l1 l2 l3 : ℚ),
          0 < n → (p = 1 ∨ p = 2 ∨ p = 3) → 2 ≤ jt →
          0 ≤ PVpv log cdf n p jt l1 l2 l3 ∧
            PVpv log cdf n p jt l1 l2 l3 ≤ 1) := by
  intro h
  have hb : ∀ z d, 0 ≤ cdfStep z d ∧ cdfStep z d ≤ 1 := by
    intro z d
    unfold cdfStep
    split <;> norm_num
  have hm : ∀ z d d', d ≤ d' → cdfStep z d' ≤ cdfStep z d := by
    intro z d d' hdd
    unfold cdfStep
    by_cases hd : d ≤ 1
    · by_cases hd' : d' ≤ 1 <;> simp [hd, hd']
    · have hd' : ¬ d' ≤ 1 := fun hle => hd (hdd.trans hle)
      simp [hd, hd']
  have hlow := (h logZero cdfStep hb hm (1/5) 1 2 0 0 0 (by norm_num)
    (Or.inl rfl) (by norm_num)).1
  have hval : PVpv logZero cdfStep (1/5) 1 2 0 0 0 = -25/4 := by
    norm_num [PVpv, omega2j, rhoj, fPar, cdfStep, Zj, lnRj, logZero]
  rw [hval] at hlow
  norm_num at hlow

/-- Claim C4 (amended): the engine's value lies in [0,1] whenever
`chi2_cdf` maps into [0,1] and, additionally, the computed Bartlett weight
`ω²` lies in [0,1]; for `ω²` outside [0,1] (possible for small `n`, e.g.
`p = 1, jt = 2, n = 1/5`) the value can leave [0,1]. -/
theorem C4_amended_thm (log : ℚ → ℚ) (cdf : ℚ → ℕ → ℚ) (n : ℚ) (p jt : ℕ)
    (l1 l2 l3 : ℚ)
    (hcdf : ∀ z d, 0 ≤ cdf z d ∧ cdf z d ≤ 1)
    (hw0 : 0 ≤ omega2j n p jt) (hw1 : omega2j n p jt ≤ 1) :
    0 ≤ PVpv log cdf n p jt l1 l2 l3 ∧ PVpv log cdf n p jt l1 l2 l3 ≤ 1 := by
  unfold PVpv
  obtain ⟨hc10, hc11⟩ := hcdf (Zj log n p jt l1 l2 l3) (fPar p)
  obtain ⟨hc20, hc21⟩ := hcdf (Zj log n p jt l1 l2 l3) (fPar p + 4)
  constructor
  · nlinarith [mul_le_of_le_one_right (sub_nonneg.mpr hw1) hc11,
      mul_le_of_le_one_right hw0 hc21]
  · nlinarith [mul_nonneg (sub_nonneg.mpr hw1) hc10,
      mul_nonneg hw0 hc20]

theorem C4_amended_witness :
    (∀ z d, 0 ≤ cdfZero z d ∧ cdfZero z d ≤ 1) ∧
    (0 ≤ omega2j 2 2 2 ∧ omega2j 2 2 2 ≤ 1) ∧
    (0 ≤ PVpv logZero cdfZero 2 2 2 0 0 0 ∧
      PVpv logZero cdfZero 2 2 2 0 0 0 ≤ 1) :=
  ⟨fun z d => ⟨by norm_num [cdfZero], by norm_num [cdfZero]⟩,
   ⟨by norm_num [omega2j, rhoj], by norm_num [omega2j, rhoj]⟩,
   C4_amended_thm logZero cdfZero 2 2 2 0 0 0
     (fun z d => ⟨by norm_num [cdfZero], by norm_num [cdfZero]⟩)
     (by norm_num [omega2j, rhoj]) (by norm_num [omega2j, rhoj])⟩

/-- Claim C7: for a fixed stack of pixels and `s1 ≤ s2`, running the
synthesizer with the more permissive threshold `s2` marks at least as many
pixels as changed as with `s1`, in each of the four output maps. -/
theorem C7_monotonicity (kk : ℕ) (s1 s2 : ℚ) (h : s1 ≤ s2)
    (pixels : List (ℕ → ℕ → ℚ)) :
    pixels.countP (markedCmap kk s1) ≤ pixels.countP (markedCmap kk s2) ∧
    pixels.countP (markedSmap kk s1) ≤ pixels.countP (markedSmap kk s2) ∧
    pixels.countP (markedFmap kk s1) ≤ pixels.countP (markedFmap kk s2) ∧
    pixels.countP (markedBmap kk s1) ≤ pixels.countP (markedBmap kk s2) :=
  ⟨List.countP_mono_left (fun pvm _ => markedCmap_mono h pvm),
   List.countP_mono_left (fun pvm _ => markedSmap_mono h pvm),
   List.countP_mono_left (fun pvm _ => markedFmap_mono h pvm),
   List.countP_mono_left (fun pvm _ => markedBmap_mono h pvm)⟩

theorem C7_witness :
    (0 : ℚ) ≤ 1 ∧
    ([pvmW].countP (markedCmap 3 0) ≤ [pvmW].countP (markedCmap 3 1) ∧
     [pvmW].countP (markedSmap 3 0) ≤ [pvmW].countP (markedSmap 3 1) ∧
     [pvmW].countP (markedFmap 3 0) ≤ [pvmW].countP (markedFmap 3 1) ∧
     [pvmW].countP (markedBmap 3 0) ≤ [pvmW].countP (markedBmap 3 1)) :=
  ⟨by decide, C7_monotonicity 3 0 1 (by decide) [pvmW]⟩

end SarSeq
